import Mathlib

set_option maxHeartbeats 1000000
set_option maxRecDepth 100000

/-! Shallow embedding of the TranscodeBot append-only binary container
    (package `build`: `BinAppender` in build.go and `BinAppendExtractor` in
    the companion extractor file).  Bytes are modelled as `Nat` values and
    files as `List Nat`; the Go `map[string]appendedData` is an association
    list with insert-or-replace update.  The gzip and JSON libraries are
    external to the repository and appear as codec parameters.  Filesystem
    primitives are modelled as succeeding, except that `os.Open` may fail
    through the `fs : String → Option (List Nat)` map giving each path's
    contents.  Functions whose resource handling the claims mention also
    return the ordered list of file-handle operations they performed. -/

def METADATA_VERSION : String := "0.1"

/-- One block's bookkeeping entry (build.go `appendedData`). -/
structure appendedData where
  StartFilePtr : Nat
  ZippedSize : Nat
deriving DecidableEq

/-- The trailer payload (build.go `appendedMetadata`); the Go
`map[string]appendedData` field is an association list updated in place. -/
structure appendedMetadata where
  Version : String
  Data : List (String × appendedData)
deriving DecidableEq

/-- Association-list lookup, modelling Go map indexing. -/
def mapLookup (k : String) : List (String × appendedData) → Option appendedData
  | [] => none
  | (k2, v) :: rest => if k2 = k then some v else mapLookup k rest

/-- Association-list insert-or-replace, modelling Go map assignment. -/
def mapInsert (k : String) (v : appendedData) :
    List (String × appendedData) → List (String × appendedData)
  | [] => [(k, v)]
  | (k2, v2) :: rest => if k2 = k then (k, v) :: rest else (k2, v2) :: mapInsert k v rest

/-- Model of the `compress/gzip` library, which is external to the
repository: `compress` is the output a gzip writer produces from the given
bytes, `headerOk` says whether `gzip.NewReader` accepts the leading bytes,
and `decompressAll` is the result of draining a gzip reader over the
bytes. -/
structure GzipCodec where
  compress : List Nat → List Nat
  headerOk : List Nat → Bool
  decompressAll : List Nat → Option (List Nat)

/-- Model of the `encoding/json` library, which is external to the
repository: `marshal` is `json.Marshal` of the metadata and `decode` is
`json.NewDecoder(..).Decode`, which reads one value and ignores trailing
bytes. -/
structure JsonCodec where
  marshal : appendedMetadata → List Nat
  decode : List Nat → Option appendedMetadata

/-- `binary.LittleEndian.PutUint64`: the 8 little-endian base-256 digits,
which depend only on the argument modulo 2 ^ 64 and therefore absorb the Go
`uint64` conversion. -/
def putUint64LE (n : Nat) : List Nat :=
  [n % 256, n / 256 % 256, n / 65536 % 256, n / 16777216 % 256,
   n / 4294967296 % 256, n / 1099511627776 % 256,
   n / 281474976710656 % 256, n / 72057594037927936 % 256]

/-- `binary.LittleEndian.Uint64` over a little-endian byte list. -/
def leUint64 : List Nat → Nat
  | [] => 0
  | b :: rest => b + 256 * leUint64 rest

/-- Write-side state: the contents of the file behind the handle plus the
in-memory metadata (build.go `BinAppender`; the mutex only serialises calls
and is not represented in this sequential model). -/
structure BinAppender where
  file : List Nat
  metadata : appendedMetadata
deriving DecidableEq

/-- build.go `MakeAppender`: open an existing file whose current contents
are `initial` and start an empty index at the current version. -/
def MakeAppender (initial : List Nat) : BinAppender :=
  { file := initial
    metadata := { Version := METADATA_VERSION, Data := [] } }

inductive AppendErr where
  | openFail (path : String)
  | duplicate (path : String)
deriving DecidableEq

/-- build.go `BinAppender.AppendStreamReader`: seek to the end of the file,
gzip the whole source onto it, seek to the new end, and record start pointer
and zipped size under `name`, overwriting any previous entry.  The only
error returns in the source are filesystem failures, which this model
treats as succeeding. -/
def BinAppender.AppendStreamReader (gz : GzipCodec) (appender : BinAppender)
    (name : String) (source : List Nat) : Except AppendErr BinAppender :=
  let startPtr := appender.file.length
  let zipped := gz.compress source
  let endPtr := startPtr + zipped.length
  .ok { file := appender.file ++ zipped
        metadata := { Version := appender.metadata.Version
                      Data := mapInsert name
                        { StartFilePtr := startPtr, ZippedSize := endPtr - startPtr }
                        appender.metadata.Data } }

/-- File-handle events performed by a call, in order: a successful open, a
close, a seek, a read. -/
inductive FsOp where
  | opn
  | cls
  | seekOp
  | readOp
deriving DecidableEq

/-- build.go `BinAppender.AppendFile`: open `source`, reject when that exact
string is already a key of the in-memory index (the source handle stays
open on that path, as in the source code), otherwise delegate to
`AppendStreamReader` with the full `source` string as the name and close
the handle.  Returns the result, the possibly updated appender, and the
handle trace. -/
def BinAppender.AppendFile (gz : GzipCodec) (fs : String → Option (List Nat))
    (appender : BinAppender) (source : String) :
    Except AppendErr Unit × BinAppender × List FsOp :=
  match fs source with
  | none => (.error (.openFail source), appender, [])
  | some content =>
    if (mapLookup source appender.metadata.Data).isSome then
      (.error (.duplicate source), appender, [.opn])
    else
      match appender.AppendStreamReader gz source content with
      | .ok st2 => (.ok (), st2, [.opn, .cls])
      | .error e => (.error e, appender, [.opn])

/-- build.go `BinAppender.Close`: seek to the end of the file, write the
json-marshalled metadata and then the 8-byte little-endian offset at which
that json block begins; the result is the final file contents. -/
def BinAppender.Close (js : JsonCodec) (appender : BinAppender) : List Nat :=
  let jsonPtr := appender.file.length
  appender.file ++ js.marshal appender.metadata ++ putUint64LE jsonPtr

/-- Read-side state (extractor `BinAppendExtractor`): the filename to reopen
per reader and the metadata snapshot captured at construction. -/
structure BinAppendExtractor where
  filename : String
  metadata : appendedMetadata
deriving DecidableEq

inductive ExtractErr where
  | openFail
  | seekFail
  | jsonDecodeFail
  | versionMismatch (fileVersion : String)
deriving DecidableEq

/-- Extractor `MakeAppendExtractor`: open the file, seek 8 bytes before the
end (failing when the file is shorter than that), read those 8 bytes as a
little-endian uint64, cast to int64 and seek there from the start (failing
when the cast is negative, that is, when the value is at least 2 ^ 63),
json-decode the metadata from that offset, and reject any version other
than `METADATA_VERSION`.  The discovery handle is closed on every path in
the source. -/
def MakeAppendExtractor (js : JsonCodec) (fs : String → Option (List Nat))
    (filename : String) : Except ExtractErr BinAppendExtractor :=
  match fs filename with
  | none => .error .openFail
  | some file =>
    if file.length < 8 then .error .seekFail
    else
      let metadataPtr := leUint64 (file.drop (file.length - 8))
      if 9223372036854775808 ≤ metadataPtr then .error .seekFail
      else
        match js.decode (file.drop metadataPtr) with
        | none => .error .jsonDecodeFail
        | some md =>
          if md.Version ≠ METADATA_VERSION then .error (.versionMismatch md.Version)
          else .ok { filename := filename, metadata := md }

/-- Extractor `BinAppendReader`: in the source it owns a file handle seeked
to the block start, a LimitReader capped at the zipped size, and a gzip
reader on top; `chunk` is exactly the byte range that stack can see. -/
structure BinAppendReader where
  Name : String
  chunk : List Nat
deriving DecidableEq

inductive GetErr where
  | notFound (name : String)
  | openFail
  | gzipFail
deriving DecidableEq

/-- Extractor `BinAppendExtractor.GetReader`: fail without any file access
when the name is not indexed; otherwise open a fresh handle, seek to the
recorded start, bound the handle by the recorded zipped size, and construct
a gzip reader, which reads the header.  On the gzip-construction failure
path the source returns without closing the handle. -/
def BinAppendExtractor.GetReader (gz : GzipCodec) (fs : String → Option (List Nat))
    (extractor : BinAppendExtractor) (dataName : String) :
    Except GetErr BinAppendReader × List FsOp :=
  match mapLookup dataName extractor.metadata.Data with
  | none => (.error (.notFound dataName), [])
  | some d =>
    match fs extractor.filename with
    | none => (.error .openFail, [])
    | some file =>
      let chunk := (file.drop d.StartFilePtr).take d.ZippedSize
      if gz.headerOk chunk then
        (.ok { Name := "", chunk := chunk }, [.opn, .seekOp, .readOp])
      else
        (.error .gzipFail, [.opn, .seekOp, .readOp])

inductive ByteArrayErr where
  | getReaderFailed
  | readFailed
deriving DecidableEq

/-- Outcome of a Go call that may return a value, return an error, or
panic. -/
inductive GoResult (α : Type) where
  | ok (a : α)
  | err (e : ByteArrayErr)
  | panicked
deriving DecidableEq

/-- Extractor `BinAppendExtractor.ByteArray`: get a reader, drain it, close
it.  The deferred `reader.Close()` is registered before the error from
`GetReader` is checked, so when `GetReader` fails the deferred call
dereferences a nil reader and the function panics instead of returning the
wrapped error. -/
def BinAppendExtractor.ByteArray (gz : GzipCodec) (fs : String → Option (List Nat))
    (extractor : BinAppendExtractor) (dataName : String) :
    GoResult (List Nat) × List FsOp :=
  match extractor.GetReader gz fs dataName with
  | (.error _, tr) => (.panicked, tr)
  | (.ok reader, tr) =>
    match gz.decompressAll reader.chunk with
    | none => (.err .readFailed, tr ++ [.cls])
    | some data => (.ok data, tr ++ [.cls])

/-- Run a sequence of `AppendStreamReader` calls in order; each call in this
model returns a nil error, so the fold threads the state. -/
def appendAll (gz : GzipCodec) (st : BinAppender) : List (String × List Nat) → BinAppender
  | [] => st
  | (n, b) :: rest =>
    match st.AppendStreamReader gz n b with
    | .ok st2 => appendAll gz st2 rest
    | .error _ => st

/-- The payload of the last append under a given name, if any. -/
def lastAssoc : List (String × List Nat) → String → Option (List Nat)
  | [], _ => none
  | (n, b) :: rest, key =>
    match lastAssoc rest key with
    | some v => some v
    | none => if n = key then some b else none

/-- The concatenated compressed blocks a sequence of appends writes. -/
def bodyBytes (gz : GzipCodec) (blocks : List (String × List Nat)) : List Nat :=
  (blocks.map (fun p => gz.compress p.2)).flatten

/-- A concrete gzip-codec instance for instantiating the library
hypotheses: the identity compressor, whose reader accepts every header and
returns the bytes unchanged. -/
def gzId : GzipCodec :=
  { compress := fun b => b, headerOk := fun _ => true, decompressAll := fun b => some b }

/-- Self-delimiting byte encoding of a natural number, used to build a
concrete `JsonCodec` instance: `n` zero bytes followed by a single 1
byte. -/
def encNat (n : Nat) : List Nat :=
  List.replicate n 0 ++ [1]

/-- Decoder matching `encNat`; returns the value and the remaining bytes. -/
def decNat : List Nat → Option (Nat × List Nat)
  | [] => none
  | 0 :: rest =>
    match decNat rest with
    | some (m, rem) => some (m + 1, rem)
    | none => none
  | _ :: rest => some (0, rest)

/-- Length-prefixed encoding of a list through an element encoder. -/
def encList {α : Type} (enc : α → List Nat) (xs : List α) : List Nat :=
  encNat xs.length ++ (xs.map enc).flatten

/-- Decode exactly `k` elements with `dec`. -/
def decListN {α : Type} (dec : List Nat → Option (α × List Nat)) :
    Nat → List Nat → Option (List α × List Nat)
  | 0, bs => some ([], bs)
  | k + 1, bs =>
    match dec bs with
    | none => none
    | some (a, rest) =>
      match decListN dec k rest with
      | none => none
      | some (as2, rem) => some (a :: as2, rem)

/-- Decoder matching `encList`. -/
def decList {α : Type} (dec : List Nat → Option (α × List Nat)) (bs : List Nat) :
    Option (List α × List Nat) :=
  match decNat bs with
  | none => none
  | some (n, rest) => decListN dec n rest

/-- Character encoder: the code point in self-delimiting form. -/
def encChar (c : Char) : List Nat := encNat c.toNat

/-- Decoder matching `encChar`. -/
def decChar (bs : List Nat) : Option (Char × List Nat) :=
  match decNat bs with
  | none => none
  | some (n, rest) => some (Char.ofNat n, rest)

/-- String encoder: the length-prefixed character list. -/
def encString (s : String) : List Nat := encList encChar s.data

/-- Decoder matching `encString`. -/
def decString (bs : List Nat) : Option (String × List Nat) :=
  match decList decChar bs with
  | none => none
  | some (cs, rest) => some (String.mk cs, rest)

/-- Encoder for one `appendedData` record. -/
def encData (d : appendedData) : List Nat := encNat d.StartFilePtr ++ encNat d.ZippedSize

/-- Decoder matching `encData`. -/
def decData (bs : List Nat) : Option (appendedData × List Nat) :=
  match decNat bs with
  | none => none
  | some (s, r1) =>
    match decNat r1 with
    | none => none
    | some (z, r2) => some ({ StartFilePtr := s, ZippedSize := z }, r2)

/-- Encoder for one name-to-descriptor index entry. -/
def encEntry (p : String × appendedData) : List Nat := encString p.1 ++ encData p.2

/-- Decoder matching `encEntry`. -/
def decEntry (bs : List Nat) : Option ((String × appendedData) × List Nat) :=
  match decString bs with
  | none => none
  | some (n, r1) =>
    match decData r1 with
    | none => none
    | some (d, r2) => some ((n, d), r2)

/-- Concrete metadata serialiser standing in for `json.Marshal`. -/
def marshalMeta (m : appendedMetadata) : List Nat :=
  encString m.Version ++ encList encEntry m.Data

/-- Concrete metadata deserialiser standing in for a json decoder: reads one
value and ignores trailing bytes. -/
def decodeMeta (bs : List Nat) : Option appendedMetadata :=
  match decString bs with
  | none => none
  | some (v, r1) =>
    match decList decEntry r1 with
    | none => none
    | some (entries, _) => some { Version := v, Data := entries }

/-- The concrete `JsonCodec` instance used to discharge the json-library
hypotheses in witnesses. -/
def jsonModel : JsonCodec := { marshal := marshalMeta, decode := decodeMeta }

theorem decNat_encNat (n : Nat) (tail : List Nat) :
    decNat (encNat n ++ tail) = some (n, tail) := by
  induction n with
  | zero => rfl
  | succ k ih =>
    simp only [encNat, List.replicate_succ, List.append_eq, List.cons_append, List.nil_append,
      List.singleton_append, List.append_assoc, decNat] at ih ⊢
    simp only [ih]

theorem decListN_enc {α : Type} {dec : List Nat → Option (α × List Nat)}
    {enc : α → List Nat} (hdec : ∀ (a : α) (t : List Nat), dec (enc a ++ t) = some (a, t)) :
    ∀ (xs : List α) (tail : List Nat),
      decListN dec xs.length ((xs.map enc).flatten ++ tail) = some (xs, tail) := by
  intro xs
  induction xs with
  | nil => intro tail; rfl
  | cons x rest ih =>
    intro tail
    simp only [List.map_cons, List.flatten_cons, List.length_cons, List.append_assoc, decListN,
      hdec, ih]

theorem decList_encList {α : Type} {dec : List Nat → Option (α × List Nat)}
    {enc : α → List Nat} (hdec : ∀ (a : α) (t : List Nat), dec (enc a ++ t) = some (a, t))
    (xs : List α) (tail : List Nat) :
    decList dec (encList enc xs ++ tail) = some (xs, tail) := by
  simp only [encList, List.append_assoc, decList, decNat_encNat]
  exact decListN_enc hdec xs tail

theorem decChar_encChar (c : Char) (tail : List Nat) :
    decChar (encChar c ++ tail) = some (c, tail) := by
  simp [decChar, encChar, decNat_encNat, Char.ofNat_toNat]

theorem decString_encString (s : String) (tail : List Nat) :
    decString (encString s ++ tail) = some (s, tail) := by
  cases s with
  | mk cs => simp [decString, encString, decList_encList decChar_encChar]

theorem decData_encData (d : appendedData) (tail : List Nat) :
    decData (encData d ++ tail) = some (d, tail) := by
  simp [decData, encData, List.append_assoc, decNat_encNat]

theorem decEntry_encEntry (p : String × appendedData) (tail : List Nat) :
    decEntry (encEntry p ++ tail) = some (p, tail) := by
  simp [decEntry, encEntry, List.append_assoc, decString_encString, decData_encData]

theorem jsonModel_spec (m : appendedMetadata) (suffix : List Nat) :
    jsonModel.decode (jsonModel.marshal m ++ suffix) = some m := by
  simp [jsonModel, marshalMeta, decodeMeta, List.append_assoc, decString_encString,
    decList_encList decEntry_encEntry]

/-- `appendAll` step with the always-ok `AppendStreamReader` unfolded and
the zipped-size subtraction simplified. -/
theorem appendAll_cons2 (gz : GzipCodec) (st : BinAppender) (n : String) (b : List Nat)
    (rest : List (String × List Nat)) :
    appendAll gz st ((n, b) :: rest) =
      appendAll gz
        { file := st.file ++ gz.compress b
          metadata := { Version := st.metadata.Version
                        Data := mapInsert n
                          { StartFilePtr := st.file.length
                            ZippedSize := (gz.compress b).length }
                          st.metadata.Data } } rest := by
  show appendAll gz
      { file := st.file ++ gz.compress b
        metadata := { Version := st.metadata.Version
                      Data := mapInsert n
                        { StartFilePtr := st.file.length
                          ZippedSize := st.file.length + (gz.compress b).length - st.file.length }
                        st.metadata.Data } } rest = _
  rw [Nat.add_sub_cancel_left]

theorem appendAll_file (gz : GzipCodec) (blocks : List (String × List Nat)) :
    ∀ st : BinAppender, (appendAll gz st blocks).file = st.file ++ bodyBytes gz blocks := by
  induction blocks with
  | nil => intro st; simp [appendAll, bodyBytes]
  | cons p rest ih =>
    obtain ⟨n, b⟩ := p
    intro st
    rw [appendAll_cons2, ih]
    simp [bodyBytes, List.append_assoc]

theorem appendAll_version (gz : GzipCodec) (blocks : List (String × List Nat)) :
    ∀ st : BinAppender, (appendAll gz st blocks).metadata.Version = st.metadata.Version := by
  induction blocks with
  | nil => intro st; rfl
  | cons p rest ih =>
    obtain ⟨n, b⟩ := p
    intro st
    rw [appendAll_cons2, ih]

theorem mapLookup_mapInsert_self (k : String) (v : appendedData)
    (m : List (String × appendedData)) : mapLookup k (mapInsert k v m) = some v := by
  induction m with
  | nil => simp [mapInsert, mapLookup]
  | cons p rest ih =>
    obtain ⟨k2, v2⟩ := p
    by_cases h : k2 = k <;> simp [mapInsert, mapLookup, h, ih]

theorem mapLookup_mapInsert_ne (k k2 : String) (v : appendedData)
    (m : List (String × appendedData)) (h : k2 ≠ k) :
    mapLookup k (mapInsert k2 v m) = mapLookup k m := by
  induction m with
  | nil => simp [mapInsert, mapLookup, h]
  | cons p rest ih =>
    obtain ⟨k3, v3⟩ := p
    by_cases h3 : k3 = k2
    · subst h3
      simp [mapInsert, mapLookup, h]
    · simp [mapInsert, mapLookup, h3, ih]

theorem appendAll_lookup_of_not_mem (gz : GzipCodec) (blocks : List (String × List Nat))
    (key : String) (hmem : key ∉ blocks.map Prod.fst) :
    ∀ st : BinAppender,
      mapLookup key (appendAll gz st blocks).metadata.Data = mapLookup key st.metadata.Data := by
  induction blocks with
  | nil => intro st; rfl
  | cons p rest ih =>
    obtain ⟨n, b⟩ := p
    intro st
    simp only [List.map_cons, List.mem_cons, not_or] at hmem
    rw [appendAll_cons2, ih hmem.2]
    exact mapLookup_mapInsert_ne _ _ _ _ (Ne.symm hmem.1)

theorem lastAssoc_eq_none (blocks : List (String × List Nat)) (key : String) :
    lastAssoc blocks key = none ↔ key ∉ blocks.map Prod.fst := by
  induction blocks with
  | nil => simp [lastAssoc]
  | cons p rest ih =>
    obtain ⟨n, b⟩ := p
    simp only [lastAssoc, List.map_cons, List.mem_cons, not_or]
    cases h : lastAssoc rest key with
    | some v =>
      have : key ∈ rest.map Prod.fst := by
        by_contra hc
        rw [ih.mpr hc] at h
        cases h
      simp [this]
    | none =>
      by_cases hn : n = key
      · simp [hn]
      · simp [hn, Ne.symm hn, ih.mp h]

/-- The bytes of the middle component of a three-part concatenation. -/
theorem slice_middle (A B C : List Nat) :
    ((A ++ B ++ C).drop A.length).take B.length = B := by
  rw [List.append_assoc, List.drop_left, List.take_left]

/-- A slice that lies inside the first component of a concatenation is
unaffected by the second component. -/
theorem slice_stable (F T : List Nat) (s z : Nat) (h : s + z ≤ F.length) :
    ((F ++ T).drop s).take z = (F.drop s).take z := by
  rw [List.drop_append_eq_append_drop]
  have hs : s ≤ F.length := by omega
  have h0 : s - F.length = 0 := by omega
  rw [h0, List.drop_zero, List.take_append_eq_append_take]
  have hz : z - (F.drop s).length = 0 := by
    rw [List.length_drop]
    omega
  rw [hz, List.take_zero, List.append_nil]

theorem length_putUint64LE (n : Nat) : (putUint64LE n).length = 8 := rfl

theorem leUint64_putUint64LE (n : Nat) :
    leUint64 (putUint64LE n) = n % 18446744073709551616 := by
  simp only [putUint64LE, leUint64]
  omega

theorem close_trailer (js : JsonCodec) (st : BinAppender) :
    (BinAppender.Close js st).drop ((BinAppender.Close js st).length - 8) =
      putUint64LE st.file.length := by
  have h : BinAppender.Close js st =
      (st.file ++ js.marshal st.metadata) ++ putUint64LE st.file.length := by
    simp [BinAppender.Close, List.append_assoc]
  rw [h, List.length_append, length_putUint64LE, Nat.add_sub_cancel]
  exact List.drop_left _ _

/-- After a sequence of appends, the index entry for a name whose last
append carried payload `B` points at a byte range that lies past the
initial file contents, stays inside the final body, and holds exactly the
compressed form of `B`. -/
theorem appendAll_lookup_last (gz : GzipCodec) :
    ∀ (blocks : List (String × List Nat)) (key : String) (B : List Nat),
      lastAssoc blocks key = some B →
      ∀ st : BinAppender, ∃ s : Nat,
        mapLookup key (appendAll gz st blocks).metadata.Data =
          some { StartFilePtr := s, ZippedSize := (gz.compress B).length } ∧
        st.file.length ≤ s ∧
        s + (gz.compress B).length ≤ (appendAll gz st blocks).file.length ∧
        ((appendAll gz st blocks).file.drop s).take (gz.compress B).length = gz.compress B := by
  intro blocks
  induction blocks with
  | nil => intro key B h; cases h
  | cons p rest ih =>
    obtain ⟨n, b⟩ := p
    intro key B h st
    rw [appendAll_cons2]
    simp only [lastAssoc] at h
    cases hrest : lastAssoc rest key with
    | some v =>
      simp only [hrest] at h
      injection h with h
      subst h
      obtain ⟨s, h1, h2, h3, h4⟩ := ih key v hrest
        { file := st.file ++ gz.compress b
          metadata := { Version := st.metadata.Version
                        Data := mapInsert n
                          { StartFilePtr := st.file.length
                            ZippedSize := (gz.compress b).length }
                          st.metadata.Data } }
      refine ⟨s, h1, le_trans ?_ h2, h3, h4⟩
      simp only [List.length_append]
      omega
    | none =>
      simp only [hrest] at h
      by_cases hn : n = key
      · rw [if_pos hn] at h
        injection h with h
        subst h
        subst hn
        have hnm : n ∉ rest.map Prod.fst := (lastAssoc_eq_none rest n).mp hrest
        refine ⟨st.file.length, ?_, le_refl _, ?_, ?_⟩
        · rw [appendAll_lookup_of_not_mem gz rest n hnm]
          exact mapLookup_mapInsert_self _ _ _
        · rw [appendAll_file]
          simp only [List.length_append]
          omega
        · rw [appendAll_file]
          exact slice_middle _ _ _
      · rw [if_neg hn] at h
        cases h

/-- After appending blocks with pairwise distinct names, the i-th name's
entry starts at the initial length plus the sum of the compressed sizes of
the blocks before it, with its own compressed size recorded. -/
theorem appendAll_lookup_nodup (gz : GzipCodec) :
    ∀ (blocks : List (String × List Nat)) (st : BinAppender),
      (blocks.map Prod.fst).Nodup →
      ∀ (i : Nat) (hi : i < blocks.length),
        mapLookup (blocks.get ⟨i, hi⟩).1 (appendAll gz st blocks).metadata.Data =
          some { StartFilePtr :=
                   st.file.length +
                     ((blocks.take i).map (fun p => (gz.compress p.2).length)).sum
                 ZippedSize := (gz.compress (blocks.get ⟨i, hi⟩).2).length } := by
  intro blocks
  induction blocks with
  | nil => intro st hnd i hi; exact absurd hi (Nat.not_lt_zero i)
  | cons p rest ih =>
    obtain ⟨n, b⟩ := p
    intro st hnd i hi
    simp only [List.map_cons, List.nodup_cons] at hnd
    obtain ⟨hn, hnd2⟩ := hnd
    rw [appendAll_cons2]
    cases i with
    | zero =>
      rw [show ((n, b) :: rest).get ⟨0, hi⟩ = (n, b) from rfl]
      rw [appendAll_lookup_of_not_mem gz rest n hn, mapLookup_mapInsert_self]
      simp
    | succ j =>
      have hj : j < rest.length := Nat.lt_of_succ_lt_succ hi
      rw [show ((n, b) :: rest).get ⟨j + 1, hi⟩ = rest.get ⟨j, hj⟩ from rfl]
      rw [ih _ hnd2 j hj]
      simp only [List.take_succ_cons, List.map_cons, List.sum_cons, List.length_append,
        Nat.add_assoc]

/-- Core round trip: close an appender built from any sequence of appends,
reopen it with a fresh extractor, and `ByteArray` returns the payload of the
last append under the requested name.  The three codec hypotheses are the
contracts of the external gzip and json libraries; the size bound keeps the
trailer offset inside the int64 range. -/
theorem roundTrip_main (gz : GzipCodec) (js : JsonCodec) (fs : String → Option (List Nat))
    (fname : String) (init : List Nat) (blocks : List (String × List Nat))
    (key : String) (B : List Nat)
    (hgzH : ∀ b, gz.headerOk (gz.compress b) = true)
    (hgzD : ∀ b, gz.decompressAll (gz.compress b) = some b)
    (hjs : ∀ m suffix, js.decode (js.marshal m ++ suffix) = some m)
    (hlast : lastAssoc blocks key = some B)
    (hsize : (appendAll gz (MakeAppender init) blocks).file.length < 9223372036854775808)
    (hfs : fs fname = some (BinAppender.Close js (appendAll gz (MakeAppender init) blocks))) :
    MakeAppendExtractor js fs fname =
      .ok { filename := fname
            metadata := (appendAll gz (MakeAppender init) blocks).metadata } ∧
    (BinAppendExtractor.ByteArray gz fs
        { filename := fname
          metadata := (appendAll gz (MakeAppender init) blocks).metadata }
        key).1 = .ok B := by
  set st := appendAll gz (MakeAppender init) blocks with hst
  have hver : st.metadata.Version = METADATA_VERSION := by
    rw [hst, appendAll_version]
    rfl
  have hclose : BinAppender.Close js st =
      st.file ++ (js.marshal st.metadata ++ putUint64LE st.file.length) := by
    simp [BinAppender.Close, List.append_assoc]
  have hlen8 : ¬ (BinAppender.Close js st).length < 8 := by
    rw [hclose]
    simp only [List.length_append, length_putUint64LE]
    omega
  have hptr : leUint64 ((BinAppender.Close js st).drop ((BinAppender.Close js st).length - 8)) =
      st.file.length := by
    rw [close_trailer js st, leUint64_putUint64LE, Nat.mod_eq_of_lt]
    omega
  have hdec : js.decode ((BinAppender.Close js st).drop st.file.length) = some st.metadata := by
    rw [hclose, List.drop_left]
    exact hjs _ _
  constructor
  · simp only [MakeAppendExtractor, hfs]
    rw [if_neg hlen8]
    simp only [hptr]
    rw [if_neg (by omega : ¬ 9223372036854775808 ≤ st.file.length)]
    simp only [hdec]
    rw [if_neg (not_not_intro hver)]
  · obtain ⟨s, h1, h2, h3, h4⟩ := appendAll_lookup_last gz blocks key B hlast (MakeAppender init)
    have hchunk : ((BinAppender.Close js st).drop s).take (gz.compress B).length =
        gz.compress B := by
      rw [hclose, slice_stable _ _ _ _ h3]
      exact h4
    simp only [BinAppendExtractor.ByteArray, BinAppendExtractor.GetReader, h1, hfs, hchunk,
      hgzH, hgzD, if_true]

/-- When the appended names are pairwise distinct, the unique append under a
name is also the last one. -/
theorem lastAssoc_of_mem_nodup :
    ∀ (blocks : List (String × List Nat)) (key : String) (B : List Nat),
      (key, B) ∈ blocks → (blocks.map Prod.fst).Nodup → lastAssoc blocks key = some B := by
  intro blocks
  induction blocks with
  | nil => intro key B hmem; cases hmem
  | cons p rest ih =>
    obtain ⟨n, b⟩ := p
    intro key B hmem hnd
    simp only [List.map_cons, List.nodup_cons] at hnd
    obtain ⟨hn, hnd2⟩ := hnd
    rcases List.mem_cons.mp hmem with heq | hmemr
    · rw [Prod.ext_iff] at heq
      obtain ⟨h1, h2⟩ := heq
      simp only at h1 h2
      subst h1
      subst h2
      have hnone : lastAssoc rest key = none := (lastAssoc_eq_none rest key).mpr hn
      simp [lastAssoc, hnone]
    · have hr := ih key B hmemr hnd2
      simp [lastAssoc, hr]

/-- C1: for every byte sequence B (including the empty one) appended under
name N by `AppendStreamReader` on a `BinAppender` over any initial file
contents, among appends with pairwise distinct names, a freshly constructed
`BinAppendExtractor` over the closed file answers `ByteArray N` with exactly
B: the recorded offset and zipped size select the gzip block, bounded by the
recorded size, and it decompresses to the original bytes.  The codec
hypotheses are the gzip and json library contracts; the size bound keeps the
trailer offset in int64 range. -/
theorem c1_round_trip (gz : GzipCodec) (js : JsonCodec) (fs : String → Option (List Nat))
    (fname : String) (init : List Nat) (blocks : List (String × List Nat))
    (N : String) (B : List Nat)
    (hgzH : ∀ b, gz.headerOk (gz.compress b) = true)
    (hgzD : ∀ b, gz.decompressAll (gz.compress b) = some b)
    (hjs : ∀ m suffix, js.decode (js.marshal m ++ suffix) = some m)
    (hmem : (N, B) ∈ blocks)
    (hnd : (blocks.map Prod.fst).Nodup)
    (hsize : (appendAll gz (MakeAppender init) blocks).file.length < 9223372036854775808)
    (hfs : fs fname = some (BinAppender.Close js (appendAll gz (MakeAppender init) blocks))) :
    ∃ ex : BinAppendExtractor,
      MakeAppendExtractor js fs fname = .ok ex ∧
      (BinAppendExtractor.ByteArray gz fs ex N).1 = .ok B := by
  obtain ⟨h1, h2⟩ := roundTrip_main gz js fs fname init blocks N B hgzH hgzD hjs
    (lastAssoc_of_mem_nodup blocks N B hmem hnd) hsize hfs
  exact ⟨_, h1, h2⟩

/-- Witness for C1: a container holding the single block "a" with bytes
1, 2, 3 round trips through a fresh extractor. -/
theorem c1_round_trip_witness :
    ∃ ex : BinAppendExtractor,
      MakeAppendExtractor jsonModel
          (fun _ => some (BinAppender.Close jsonModel
            (appendAll gzId (MakeAppender []) [("a", [1, 2, 3])]))) "f" = .ok ex ∧
      (BinAppendExtractor.ByteArray gzId
          (fun _ => some (BinAppender.Close jsonModel
            (appendAll gzId (MakeAppender []) [("a", [1, 2, 3])]))) ex "a").1 =
        .ok [1, 2, 3] :=
  c1_round_trip gzId jsonModel
    (fun _ => some (BinAppender.Close jsonModel
      (appendAll gzId (MakeAppender []) [("a", [1, 2, 3])]))) "f" [] [("a", [1, 2, 3])]
    "a" [1, 2, 3] (fun _ => rfl) (fun _ => rfl) jsonModel_spec (by decide) (by decide)
    (by decide) rfl

/-- C2 counterexample: on an appender whose index already records "a", a
second `AppendStreamReader` for "a" does not fail with a duplicate-name
error; it succeeds and overwrites the index entry. -/
theorem c2_counterexample :
    BinAppender.AppendStreamReader gzId
        { file := [1]
          metadata := { Version := "0.1"
                        Data := [("a", { StartFilePtr := 0, ZippedSize := 1 })] } }
        "a" [2] =
      .ok { file := [1, 2]
            metadata := { Version := "0.1"
                          Data := [("a", { StartFilePtr := 1, ZippedSize := 1 })] } } := by
  rfl

/-- C2 (amended): the duplicate-name rejection lives in `AppendFile`, not in
`AppendStreamReader`: when the name is already recorded, `AppendFile` fails
with a duplicate-name error before writing any bytes, leaving the appender
and its file unchanged (the trace holds no write and the state is returned
as it was), while `AppendStreamReader` itself performs no duplicate check
and succeeds, overwriting the index entry. -/
theorem c2_duplicate_check (gz : GzipCodec) (fs : String → Option (List Nat))
    (st : BinAppender) (source : String) (content : List Nat) (d : appendedData)
    (n : String) (src : List Nat)
    (hopen : fs source = some content)
    (hdup : mapLookup source st.metadata.Data = some d) :
    BinAppender.AppendFile gz fs st source = (.error (.duplicate source), st, [FsOp.opn]) ∧
    ∃ st2 : BinAppender,
      BinAppender.AppendStreamReader gz st n src = .ok st2 ∧
      mapLookup n st2.metadata.Data =
        some { StartFilePtr := st.file.length, ZippedSize := (gz.compress src).length } := by
  constructor
  · simp only [BinAppender.AppendFile, hopen, hdup, Option.isSome_some, if_true]
  · refine ⟨_, rfl, ?_⟩
    simp [BinAppender.AppendStreamReader, mapLookup_mapInsert_self, Nat.add_sub_cancel_left]

/-- Witness for C2 (amended) at a concrete appender that already records
"a". -/
theorem c2_duplicate_check_witness :
    BinAppender.AppendFile gzId (fun _ => some [])
        { file := []
          metadata := { Version := "0.1"
                        Data := [("a", { StartFilePtr := 0, ZippedSize := 0 })] } } "a" =
      (.error (.duplicate "a"),
        { file := []
          metadata := { Version := "0.1"
                        Data := [("a", { StartFilePtr := 0, ZippedSize := 0 })] } },
        [FsOp.opn]) ∧
    ∃ st2 : BinAppender,
      BinAppender.AppendStreamReader gzId
          { file := []
            metadata := { Version := "0.1"
                          Data := [("a", { StartFilePtr := 0, ZippedSize := 0 })] } }
          "b" [5] = .ok st2 ∧
      mapLookup "b" st2.metadata.Data =
        some { StartFilePtr :=
                 (BinAppender.file
                   { file := []
                     metadata := { Version := "0.1"
                                   Data := [("a", { StartFilePtr := 0, ZippedSize := 0 })] } }).length
               ZippedSize := (gzId.compress [5]).length } :=
  c2_duplicate_check gzId (fun _ => some [])
    { file := []
      metadata := { Version := "0.1"
                    Data := [("a", { StartFilePtr := 0, ZippedSize := 0 })] } }
    "a" [] { StartFilePtr := 0, ZippedSize := 0 } "b" [5] rfl (by decide)

/-- C3: offset bookkeeping.  Starting from an empty file, after appending
blocks with pairwise distinct names and closing, the i-th name's recorded
start pointer is the sum of the compressed sizes of the blocks before it,
the body length (the trailer-referenced index offset written by `Close`)
is the sum of all compressed sizes, and the final 8 bytes of the closed
file read as a little-endian unsigned 64-bit integer give the offset at
which the serialized index begins. -/
theorem c3_offset_bookkeeping (gz : GzipCodec) (js : JsonCodec)
    (blocks : List (String × List Nat))
    (hnd : (blocks.map Prod.fst).Nodup)
    (hlen : (appendAll gz (MakeAppender []) blocks).file.length < 18446744073709551616) :
    (∀ (i : Nat) (hi : i < blocks.length),
      mapLookup (blocks.get ⟨i, hi⟩).1
          (appendAll gz (MakeAppender []) blocks).metadata.Data =
        some { StartFilePtr := ((blocks.take i).map (fun p => (gz.compress p.2).length)).sum
               ZippedSize := (gz.compress (blocks.get ⟨i, hi⟩).2).length }) ∧
    (appendAll gz (MakeAppender []) blocks).file.length =
      (blocks.map (fun p => (gz.compress p.2).length)).sum ∧
    leUint64 ((BinAppender.Close js (appendAll gz (MakeAppender []) blocks)).drop
        ((BinAppender.Close js (appendAll gz (MakeAppender []) blocks)).length - 8)) =
      (appendAll gz (MakeAppender []) blocks).file.length := by
  refine ⟨?_, ?_, ?_⟩
  · intro i hi
    have h := appendAll_lookup_nodup gz blocks (MakeAppender []) hnd i hi
    simpa [MakeAppender] using h
  · rw [appendAll_file]
    simp only [MakeAppender, bodyBytes, List.nil_append, List.length_flatten, List.map_map]
    rfl
  · rw [close_trailer, leUint64_putUint64LE, Nat.mod_eq_of_lt hlen]

/-- Witness for C3 on the container "a" with one byte then "b" empty. -/
theorem c3_offset_bookkeeping_witness :
    mapLookup "b" (appendAll gzId (MakeAppender []) [("a", [5]), ("b", [])]).metadata.Data =
      some { StartFilePtr := 1, ZippedSize := 0 } ∧
    (appendAll gzId (MakeAppender []) [("a", [5]), ("b", [])]).file.length = 1 ∧
    leUint64 ((BinAppender.Close jsonModel
        (appendAll gzId (MakeAppender []) [("a", [5]), ("b", [])])).drop
        ((BinAppender.Close jsonModel
          (appendAll gzId (MakeAppender []) [("a", [5]), ("b", [])])).length - 8)) = 1 := by
  have h := c3_offset_bookkeeping gzId jsonModel [("a", [5]), ("b", [])]
    (by decide) (by decide)
  exact ⟨h.1 1 (by decide), h.2.1, h.2.2⟩

/-- C4 counterexample: `AppendFile` on the path "dir/f.txt" records the
block under the full path string, and no entry exists under the base name
"f.txt". -/
theorem c4_counterexample :
    (BinAppender.AppendFile gzId
        (fun p => if p = "dir/f.txt" then some [7] else none)
        (MakeAppender []) "dir/f.txt").2.1.metadata.Data =
      [("dir/f.txt", { StartFilePtr := 0, ZippedSize := 1 })] ∧
    mapLookup "f.txt"
        (BinAppender.AppendFile gzId
          (fun p => if p = "dir/f.txt" then some [7] else none)
          (MakeAppender []) "dir/f.txt").2.1.metadata.Data = none := by
  exact ⟨rfl, rfl⟩

/-- C4 (amended): for every path p that opens successfully and is not yet
recorded, `AppendFile p` records the appended block under the full path
string p itself (not its base name), delegates the stream to
`AppendStreamReader` with p as the name, and closes the source handle on
the success path. -/
theorem c4_full_path_name (gz : GzipCodec) (fs : String → Option (List Nat))
    (st : BinAppender) (source : String) (content : List Nat)
    (hopen : fs source = some content)
    (hnew : mapLookup source st.metadata.Data = none) :
    ∃ st2 : BinAppender,
      BinAppender.AppendStreamReader gz st source content = .ok st2 ∧
      BinAppender.AppendFile gz fs st source = (.ok (), st2, [FsOp.opn, FsOp.cls]) ∧
      mapLookup source st2.metadata.Data =
        some { StartFilePtr := st.file.length, ZippedSize := (gz.compress content).length } := by
  refine ⟨_, rfl, ?_, ?_⟩
  · simp [BinAppender.AppendFile, BinAppender.AppendStreamReader, hopen, hnew]
  · simp [BinAppender.AppendStreamReader, mapLookup_mapInsert_self, Nat.add_sub_cancel_left]

/-- Witness for C4 (amended) at the path "dir/f.txt". -/
theorem c4_full_path_name_witness :
    ∃ st2 : BinAppender,
      BinAppender.AppendStreamReader gzId (MakeAppender []) "dir/f.txt" [7] = .ok st2 ∧
      BinAppender.AppendFile gzId (fun p => if p = "dir/f.txt" then some [7] else none)
          (MakeAppender []) "dir/f.txt" = (.ok (), st2, [FsOp.opn, FsOp.cls]) ∧
      mapLookup "dir/f.txt" st2.metadata.Data =
        some { StartFilePtr := (MakeAppender []).file.length
               ZippedSize := (gzId.compress [7]).length } :=
  c4_full_path_name gzId (fun p => if p = "dir/f.txt" then some [7] else none)
    (MakeAppender []) "dir/f.txt" [7] (by decide) rfl

/-- C5 (code bug): `ByteArray` for a name absent from the index does not
return a not-found error; the deferred close of the nil reader panics
before any file is opened. -/
theorem c5_byteArray_panics :
    BinAppendExtractor.ByteArray gzId (fun _ => some [])
        { filename := "f", metadata := { Version := "0.1", Data := [] } } "c" =
      (.panicked, []) := by
  rfl

/-- C6 (code bug): two handle leaks.  `AppendFile` on a duplicate name
returns the duplicate error with the source handle opened and never closed
(trace holds an open and no close, and no reader is handed to the caller),
and `GetReader` whose gzip construction fails returns the error with the
fresh handle still open. -/
theorem c6_handle_leak :
    BinAppender.AppendFile gzId (fun _ => some [7])
        { file := []
          metadata := { Version := "0.1"
                        Data := [("a", { StartFilePtr := 0, ZippedSize := 1 })] } } "a" =
      (.error (.duplicate "a"),
        { file := []
          metadata := { Version := "0.1"
                        Data := [("a", { StartFilePtr := 0, ZippedSize := 1 })] } },
        [FsOp.opn]) ∧
    BinAppendExtractor.GetReader
        { compress := fun b => b, headerOk := fun _ => false, decompressAll := fun _ => none }
        (fun _ => some [9, 9, 9])
        { filename := "f"
          metadata := { Version := "0.1"
                        Data := [("x", { StartFilePtr := 0, ZippedSize := 3 })] } } "x" =
      (.error .gzipFail, [FsOp.opn, FsOp.seekOp, FsOp.readOp]) := by
  exact ⟨rfl, rfl⟩

/-- C7: version gate.  For every container file whose trailer-referenced
index decodes to metadata carrying a Version different from
`METADATA_VERSION`, `MakeAppendExtractor` fails with a version-mismatch
error, regardless of any block data in the file. -/
theorem c7_version_gate (js : JsonCodec) (fs : String → Option (List Nat))
    (filename : String) (file : List Nat) (md : appendedMetadata)
    (hfs : fs filename = some file)
    (h8 : ¬ file.length < 8)
    (hptr : leUint64 (file.drop (file.length - 8)) < 9223372036854775808)
    (hdec : js.decode (file.drop (leUint64 (file.drop (file.length - 8)))) = some md)
    (hver : md.Version ≠ METADATA_VERSION) :
    MakeAppendExtractor js fs filename = .error (.versionMismatch md.Version) := by
  simp only [MakeAppendExtractor, hfs]
  rw [if_neg h8]
  rw [if_neg (by omega : ¬ 9223372036854775808 ≤ leUint64 (file.drop (file.length - 8)))]
  simp only [hdec]
  rw [if_pos hver]

/-- Witness for C7: a file holding a serialized index with version "9.9"
and a trailer pointing at offset 0 is rejected. -/
theorem c7_version_gate_witness :
    MakeAppendExtractor jsonModel
        (fun _ => some (marshalMeta { Version := "9.9", Data := [] } ++ putUint64LE 0))
        "f" = .error (.versionMismatch "9.9") :=
  c7_version_gate jsonModel
    (fun _ => some (marshalMeta { Version := "9.9", Data := [] } ++ putUint64LE 0)) "f"
    (marshalMeta { Version := "9.9", Data := [] } ++ putUint64LE 0)
    { Version := "9.9", Data := [] } rfl (by decide) (by decide) (by decide) (by decide)

/-- C8: absent name.  When a name is not in the captured index, `GetReader`
fails with a not-found error and its file-operation trace is empty: no
handle is opened, nothing is read, so no file input or output happens
beyond the extractor's initial open. -/
theorem c8_absent_name (gz : GzipCodec) (fs : String → Option (List Nat))
    (extractor : BinAppendExtractor) (dataName : String)
    (h : mapLookup dataName extractor.metadata.Data = none) :
    BinAppendExtractor.GetReader gz fs extractor dataName =
      (.error (.notFound dataName), []) := by
  simp only [BinAppendExtractor.GetReader, h]

/-- Witness for C8 at an extractor with an empty index. -/
theorem c8_absent_name_witness :
    BinAppendExtractor.GetReader gzId (fun _ => none)
        { filename := "f", metadata := { Version := "0.1", Data := [] } } "c" =
      (.error (.notFound "c"), []) :=
  c8_absent_name gzId (fun _ => none)
    { filename := "f", metadata := { Version := "0.1", Data := [] } } "c" rfl

/-- C9: append-only frame property.  `AppendStreamReader` writes only past
the previous end of file: the new contents are the old contents followed by
the compressed block, so every prior byte is unchanged and the length never
decreases; the same holds across any sequence of appends and for the final
`Close`, which appends the serialized index and trailer after the existing
bytes. -/
theorem c9_append_only (gz : GzipCodec) (js : JsonCodec) (st : BinAppender)
    (n : String) (src : List Nat) (blocks : List (String × List Nat)) :
    (∃ st2 : BinAppender,
      BinAppender.AppendStreamReader gz st n src = .ok st2 ∧
      st2.file = st.file ++ gz.compress src ∧
      st2.file.take st.file.length = st.file ∧
      st.file.length ≤ st2.file.length) ∧
    ((appendAll gz st blocks).file.take st.file.length = st.file ∧
      st.file.length ≤ (appendAll gz st blocks).file.length) ∧
    (BinAppender.Close js st =
        st.file ++ (js.marshal st.metadata ++ putUint64LE st.file.length) ∧
      (BinAppender.Close js st).take st.file.length = st.file ∧
      st.file.length ≤ (BinAppender.Close js st).length) := by
  have hclose : BinAppender.Close js st =
      st.file ++ (js.marshal st.metadata ++ putUint64LE st.file.length) := by
    simp [BinAppender.Close, List.append_assoc]
  refine ⟨⟨_, rfl, rfl, ?_, ?_⟩, ⟨?_, ?_⟩, hclose, ?_, ?_⟩
  · exact List.take_left _ _
  · simp only [List.length_append]
    omega
  · rw [appendAll_file]
    exact List.take_left _ _
  · rw [appendAll_file]
    simp only [List.length_append]
    omega
  · rw [hclose]
    exact List.take_left _ _
  · rw [hclose]
    simp only [List.length_append]
    omega

/-- C10: when `AppendStreamReader` is called twice with the same name
(payloads b1 then b2) and the appender is closed, both calls succeed, the
persisted index holds exactly one entry for the name and it describes the
second block (starting right after the first block's compressed bytes),
the first block's compressed bytes remain physically in the file body, and
a fresh extractor's `ByteArray` for the name returns b2. -/
theorem c10_last_write_wins (gz : GzipCodec) (js : JsonCodec)
    (fs : String → Option (List Nat)) (fname : String) (init : List Nat)
    (name : String) (b1 b2 : List Nat)
    (hgzH : ∀ b, gz.headerOk (gz.compress b) = true)
    (hgzD : ∀ b, gz.decompressAll (gz.compress b) = some b)
    (hjs : ∀ m suffix, js.decode (js.marshal m ++ suffix) = some m)
    (hsize : (appendAll gz (MakeAppender init) [(name, b1), (name, b2)]).file.length <
      9223372036854775808)
    (hfs : fs fname = some (BinAppender.Close js
      (appendAll gz (MakeAppender init) [(name, b1), (name, b2)]))) :
    (appendAll gz (MakeAppender init) [(name, b1), (name, b2)]).file =
        init ++ gz.compress b1 ++ gz.compress b2 ∧
    (appendAll gz (MakeAppender init) [(name, b1), (name, b2)]).metadata.Data =
        [(name, { StartFilePtr := init.length + (gz.compress b1).length
                  ZippedSize := (gz.compress b2).length })] ∧
    ∃ ex : BinAppendExtractor,
      MakeAppendExtractor js fs fname = .ok ex ∧
      (BinAppendExtractor.ByteArray gz fs ex name).1 = .ok b2 := by
  refine ⟨?_, ?_, ?_⟩
  · rw [appendAll_file]
    simp [MakeAppender, bodyBytes, List.append_assoc]
  · rw [appendAll_cons2, appendAll_cons2]
    simp [appendAll, MakeAppender, mapInsert, List.length_append]
  · have hlast : lastAssoc [(name, b1), (name, b2)] name = some b2 := by
      simp [lastAssoc]
    obtain ⟨h1, h2⟩ := roundTrip_main gz js fs fname init [(name, b1), (name, b2)] name b2
      hgzH hgzD hjs hlast hsize hfs
    exact ⟨_, h1, h2⟩

/-- Witness for C10: appending "a" with payload 1 and then "a" with
payload 2, 3 keeps both compressed blocks in the body, indexes only the
second, and a fresh extractor reads back 2, 3. -/
theorem c10_last_write_wins_witness :
    (appendAll gzId (MakeAppender []) [("a", [1]), ("a", [2, 3])]).file =
        [] ++ gzId.compress [1] ++ gzId.compress [2, 3] ∧
    (appendAll gzId (MakeAppender []) [("a", [1]), ("a", [2, 3])]).metadata.Data =
        [("a", { StartFilePtr := List.length ([] : List Nat) + (gzId.compress [1]).length
                 ZippedSize := (gzId.compress [2, 3]).length })] ∧
    ∃ ex : BinAppendExtractor,
      MakeAppendExtractor jsonModel
          (fun _ => some (BinAppender.Close jsonModel
            (appendAll gzId (MakeAppender []) [("a", [1]), ("a", [2, 3])]))) "f" = .ok ex ∧
      (BinAppendExtractor.ByteArray gzId
          (fun _ => some (BinAppender.Close jsonModel
            (appendAll gzId (MakeAppender []) [("a", [1]), ("a", [2, 3])]))) ex "a").1 =
        .ok [2, 3] :=
  c10_last_write_wins gzId jsonModel
    (fun _ => some (BinAppender.Close jsonModel
      (appendAll gzId (MakeAppender []) [("a", [1]), ("a", [2, 3])]))) "f" [] "a" [1] [2, 3]
    (fun _ => rfl) (fun _ => rfl) jsonModel_spec (by decide) rfl
